import Mathlib

/-!
# Verification of the `RustDocsSearcher` TF-IDF engine (`src/tools/search_docs.rs`)

This file gives a shallow embedding of the search-documentation subsystem of
the repository and proves (or refutes) the specification claims about it.

Modelling decisions:
* Rust `f64` values are modelled by `ℚ` wherever the code only adds, multiplies,
  divides and compares them (term frequencies, scores, the stored idf values),
  and the natural logarithm appearing in `build_index` is modelled over `ℝ`
  with `Real.log`.
* Rust `HashMap<String, f64>` values are modelled as association lists with
  unique keys (the maps in the code are built with `entry(..).or_insert` /
  single inserts per distinct key, so key iteration visits each key once);
  lookup is `List.lookup`.
* `Vec` push loops are modelled with `List.filterMap` / `List.foldl`.
* Rust's stable `sort_by` with comparator `b.partial_cmp(&a)` (descending by
  score, ties kept in original order) is modelled by `List.mergeSort`, which is
  the stable sort of the same total preorder.
* Strings are processed as `List Char`; Rust's byte-index slicing is modelled
  explicitly with `Char.utf8Size`, and a slice whose end is not a character
  boundary (a Rust panic) is modelled as `none`.
-/

namespace SearchDocs

/-! ## Data model (`DocSearchResult`, `IndexedDocument`, searcher state) -/

/-- `DocSearchResult` from `search_docs.rs` (score modelled as `ℚ`). -/
structure DocSearchResult where
  title : String
  description : String
  path : String
  relevance_score : ℚ
deriving DecidableEq

/-- `IndexedDocument` from `search_docs.rs`; `term_frequencies` is the
`HashMap<String, f64>` modelled as an association list with unique keys. -/
structure IndexedDocument where
  path : String
  title : String
  description : String
  term_frequencies : List (String × ℚ)
deriving DecidableEq

/-- The searcher's index state: the `documents` vector and the
`inverse_document_frequency` map of `RustDocsSearcher` (values as `ℚ`). -/
structure SearcherState where
  documents : List IndexedDocument
  idf : List (String × ℚ)
deriving DecidableEq

/-! ## Tokenizer (`RustDocsSearcher::tokenize`) -/

/-- Rust `str::split(predicate)` on a character separator predicate, as a
head-segment/remaining-segments pair: `rustSplitAux sep l = (h, t)` means the
split of `l` is `h :: t`.  Splitting keeps empty segments, exactly as Rust's
`split` does. -/
def rustSplitAux (sep : Char → Bool) : List Char → List Char × List (List Char)
  | [] => ([], [])
  | c :: cs =>
    let r := rustSplitAux sep cs
    if sep c then ([], r.1 :: r.2) else (c :: r.1, r.2)

/-- Rust `str::split(predicate)` over a character list: the full segment list. -/
def rustSplit (sep : Char → Bool) (l : List Char) : List (List Char) :=
  (rustSplitAux sep l).1 :: (rustSplitAux sep l).2

/-- `RustDocsSearcher::tokenize` on a character list:
`text.to_lowercase().split(|c| !c.is_alphanumeric()).filter(|s| !s.is_empty() && s.len() > 1)`.
Unicode lower-casing and the Unicode alphanumeric class are modelled by
`Char.toLower` and `Char.isAlphanum`. -/
def tokenizeChars (text : List Char) : List (List Char) :=
  (rustSplit (fun c => !c.isAlphanum) (text.map Char.toLower)).filter
    (fun s => !s.isEmpty && s.length > 1)

/-- `RustDocsSearcher::tokenize : &str -> Vec<String>`. -/
def tokenize (text : String) : List String :=
  (tokenizeChars text.data).map List.asString

/-- Specification-side description of splitting: the maximal runs of
characters satisfying `p`, in order, duplicates retained. -/
def alnumRuns (p : Char → Bool) : List Char → List (List Char)
  | [] => []
  | c :: cs =>
    if p c then (c :: cs.takeWhile p) :: alnumRuns p (cs.dropWhile p)
    else alnumRuns p cs
termination_by l => l.length
decreasing_by
  · simp only [List.length_cons]
    exact Nat.lt_succ_of_le (cs.dropWhile_sublist p).length_le
  · simp

/-! ## Query engine (`RustDocsSearcher::search`) -/

/-- `map.get(term).unwrap_or(&0.0)`. -/
def getOr0 (m : List (String × ℚ)) (t : String) : ℚ :=
  (m.lookup t).getD 0

/-- The score accumulation loop of `search`: starting from `0.0`, add
`tf * idf` for each query term. -/
def docScore (st : SearcherState) (doc : IndexedDocument) (queryTerms : List String) : ℚ :=
  queryTerms.foldl
    (fun acc term => acc + getOr0 doc.term_frequencies term * getOr0 st.idf term) 0

/-- The `DocSearchResult` pushed for a document. -/
def resultOf (st : SearcherState) (doc : IndexedDocument) (queryTerms : List String) :
    DocSearchResult :=
  ⟨doc.title, doc.description, doc.path, docScore st doc queryTerms⟩

/-- The comparator of `results.sort_by(|a, b| b.relevance_score.partial_cmp(&a.relevance_score))`:
`a` may stay before `b` exactly when `b.relevance_score ≤ a.relevance_score`.
Rust's `sort_by` is a stable sort of this total preorder, hence modelled by
the (stable) `List.mergeSort`. -/
def scoreGE (a b : DocSearchResult) : Bool :=
  b.relevance_score ≤ a.relevance_score

/-- `RustDocsSearcher::search`: tokenize the query; on zero terms return `[]`;
otherwise collect a result (in document order) for every document with score
`> 0`, sort by descending score (stable), truncate to 10. -/
def search (st : SearcherState) (query : String) : List DocSearchResult :=
  let query_terms := tokenize query
  if query_terms.isEmpty then [] else
  let results := st.documents.filterMap (fun doc =>
    if 0 < docScore st doc query_terms then some (resultOf st doc query_terms) else none)
  ((results.mergeSort scoreGE).take 10)

/-! ## Term-frequency computation (`RustDocsSearcher::process_html_file`, lines 241-252)

`process_html_file` tokenizes the extracted text, returns `None` when no terms
result, and otherwise counts each term with `entry(term).or_insert(0.0) += 1.0`
and divides every count by the total term count.  The `HashMap` is modelled as
an association list keyed by first occurrence. -/

/-- One `*map.entry(t).or_insert(0) += 1` step on the association-list model. -/
def bump : List (String × Nat) → String → List (String × Nat)
  | [], t => [(t, 1)]
  | (s, k) :: rest, t =>
    if s = t then (s, k + 1) :: rest else (s, k) :: bump rest t

/-- The counting loop over the term list. -/
def tally (terms : List String) : List (String × Nat) :=
  terms.foldl bump []

/-- The term-frequency table of `process_html_file`: `none` models the
`if term_count == 0 { return Ok(None) }` early exit (no `IndexedDocument`),
otherwise each raw count is divided by the total term count. -/
def computeTF (terms : List String) : Option (List (String × ℚ)) :=
  if terms.length = 0 then none
  else some ((tally terms).map (fun p => (p.1, (p.2 : ℚ) / (terms.length : ℚ))))

/-! ## Index construction (`RustDocsSearcher::build_index`, lines 161-197)

`build_index` first collects `all_html_files`, sets
`total_docs = all_html_files.len()`, then processes each file; files whose
processing errs (`Err(_)`) or yields no terms (`Ok(None)`) are skipped but
remain counted in `total_docs`.  Each file outcome is modelled as
`Except String (Option IndexedDocument)`, the result type of
`process_html_file`. -/

/-- One per-file processing outcome, as matched by
`if let Ok(Some(indexed_doc)) = self.process_html_file(file_path)`. -/
abbrev FileOutcome := Except String (Option IndexedDocument)

/-- The documents actually pushed onto `self.documents`, in file order. -/
def indexedDocs (files : List FileOutcome) : List IndexedDocument :=
  files.filterMap (fun f => match f with
    | .ok (some d) => some d
    | _ => none)

/-- Whether a document's `term_frequencies` map contains the term, as key
iteration over the `HashMap` sees it. -/
def hasTerm (d : IndexedDocument) (t : String) : Bool :=
  (d.term_frequencies.lookup t).isSome

/-- The `doc_counts` entry for `t`: the number of pushed documents whose
`term_frequencies` contains `t` (each document's map has unique keys, so the
`for term in indexed_doc.term_frequencies.keys()` loop adds 1 per document). -/
def dfCount (files : List FileOutcome) (t : String) : Nat :=
  (indexedDocs files).countP (fun d => hasTerm d t)

/-- `total_docs = all_html_files.len() as f64`. -/
def totalDocs (files : List FileOutcome) : Nat :=
  files.length

/-- Lookup in the `inverse_document_frequency` map built by
`for (term, count) in doc_counts { idf.insert(term, (total_docs / count).ln()) }`:
present exactly for terms of `doc_counts` (df ≥ 1), with the ratio
`total_docs / count` to which `.ln()` is applied.  The `f64` logarithm is
modelled in the theorems by mapping `Real.log` over this ratio (kept separate
so the embedding stays computable). -/
def idfRatioAt (files : List FileOutcome) (t : String) : Option ℚ :=
  if dfCount files t = 0 then none
  else some ((totalDocs files : ℚ) / (dfCount files t : ℚ))

/-- The idf value stored for `t`, as a real number: `ln(total_docs / df(t))`
for terms present in some pushed document, absent otherwise.  (A proposition
rather than a function, since `Real.log` has no executable code.) -/
def idfValueIs (files : List FileOutcome) (t : String) (v : Option ℝ) : Prop :=
  (idfRatioAt files t).map (fun q => Real.log (q : ℝ)) = v

/-! ## Description extraction (`process_html_file`, lines 228-234)

The description is the text of the first `.docblock p` element: trimmed, and
when its byte length exceeds 200, replaced by `format!("{}...", &trimmed[..200])`.
Rust `str::len` counts bytes and `&trimmed[..200]` panics when byte offset 200
is not a character boundary; the panic is modelled as `none`. -/

/-- Rust `str::trim` on a character list. -/
def rustTrim (l : List Char) : List Char :=
  ((l.dropWhile Char.isWhitespace).reverse.dropWhile Char.isWhitespace).reverse

/-- UTF-8 byte length of a character list (Rust `str::len`). -/
def byteLen (l : List Char) : Nat :=
  (l.map Char.utf8Size).sum

/-- Rust byte slicing `&s[..n]`: the characters making up the first `n` bytes,
or `none` (panic) when `n` does not land on a character boundary. -/
def bytePrefix (n : Nat) : List Char → Option (List Char)
  | [] => if n = 0 then some [] else none
  | c :: cs =>
    if n = 0 then some []
    else if c.utf8Size ≤ n then (bytePrefix (n - c.utf8Size) cs).map (c :: ·)
    else none

/-- The truncation closure of `process_html_file`:
`if trimmed.len() > 200 { format!("{}...", &trimmed[..200]) } else { trimmed }`. -/
def truncateDesc (text : List Char) : Option (List Char) :=
  let trimmed := rustTrim text
  if 200 < byteLen trimmed then (bytePrefix 200 trimmed).map (· ++ "...".data)
  else some trimmed

/-- The whole `description` computation: `unwrap_or_default` gives `""` when
no `.docblock p` exists; otherwise the trim-and-truncate closure runs on the
first block's text (and may panic, modelled as `none`). -/
def descriptionOf (firstBlockText : Option (List Char)) : Option (List Char) :=
  match firstBlockText with
  | none => some []
  | some text => truncateDesc text

/-! ## Corpus walker (`RustDocsSearcher::find_html_files`, lines 200-211)

The relevant filesystem shape: a node is a file (with a path and an
`extension()` value), a directory (with a readability flag for `fs::read_dir`
and an ordered entry list), or an entry whose `entry?` read fails.  The walker
returns `Ok(())` for a non-directory argument, errs (`?`) when `read_dir` or
an entry read fails, pushes files whose extension is `Some("html")`, and
recurses into subdirectories depth-first.  Errors abort the whole walk. -/

inductive FsNode where
  | file (path : String) (ext : Option String)
  | dir (path : String) (readable : Bool) (entries : List FsNode)
  | badEntry

mutual

/-- `find_html_files(dir, files)`, returning the pushed paths in push order. -/
def findHtmlFiles : FsNode → Except Unit (List String)
  | .file _ _ => .ok []
  | .badEntry => .ok []
  | .dir _ readable entries =>
    if readable then findInEntries entries else .error ()

/-- The `for entry in fs::read_dir(dir)?` loop body over the entry list. -/
def findInEntries : List FsNode → Except Unit (List String)
  | [] => .ok []
  | .badEntry :: _ => .error ()
  | .file p ext :: rest => do
    let more ← findInEntries rest
    .ok ((if ext = some "html" then [p] else []) ++ more)
  | .dir p r cs :: rest => do
    let here ← findHtmlFiles (.dir p r cs)
    let more ← findInEntries rest
    .ok (here ++ more)

end

mutual

/-- Specification-side collector: every file with extension `html` strictly
below the node, depth-first, ignoring readability.  (A bare file root yields
nothing: the walker only pushes files found as directory entries.) -/
def allHtmlFiles : FsNode → List String
  | .file _ _ => []
  | .badEntry => []
  | .dir _ _ entries => allHtmlInEntries entries

def allHtmlInEntries : List FsNode → List String
  | [] => []
  | .file p ext :: rest =>
    (if ext = some "html" then [p] else []) ++ allHtmlInEntries rest
  | .badEntry :: rest => allHtmlInEntries rest
  | .dir p r cs :: rest => allHtmlFiles (.dir p r cs) ++ allHtmlInEntries rest

end

mutual

/-- Whether the whole tree can be walked without a read error. -/
def walkOk : FsNode → Bool
  | .file _ _ => true
  | .badEntry => false
  | .dir _ readable entries => readable && walkOkEntries entries

def walkOkEntries : List FsNode → Bool
  | [] => true
  | e :: rest => walkOk e && walkOkEntries rest

end

/-! ## Constructor (`RustDocsSearcher::new`, lines 44-67)

On a cache miss, `new` runs `build_index`; if it errs, the error is only
logged (`eprintln!`) and the searcher keeps its initial empty `documents` and
`inverse_document_frequency`.  `new` always returns a searcher and runs on the
calling thread. -/

/-- `RustDocsSearcher::new` after a cache miss, as a function of the
`build_index` outcome. -/
def newSearcher (buildResult : Except String SearcherState) : SearcherState :=
  match buildResult with
  | .ok st => st
  | .error _ => ⟨[], []⟩

/-! ## Cache store (`save_to_cache` / `load_from_cache`, lines 84-124)

The `CacheContainer` struct is from the source; the byte (de)serialization is
performed by the external `bincode` library, which is not part of this
repository.  Modelled from the spec: "persist/restore a SearchIndex to/from
one fixed location ... in a compact binary form"; "Serialization must
round-trip exactly".  The missing `bincode::serialize_into` /
`bincode::deserialize_from` are modelled as a length-prefixed binary codec
over a stream of words: scalars are single words, strings and lists are
length-prefixed, rationals (the `f64` stand-in) are numerator/denominator. -/

/-- `CacheContainer` from `search_docs.rs` (the `u64` hash as `Nat`). -/
structure CacheContainer where
  docs_path_hash : Nat
  documents : List IndexedDocument
  idf : List (String × ℚ)
deriving DecidableEq

/-- Modelled from the spec: scalar encoding of the compact binary form. -/
def encNat (n : Nat) : List Nat := [n]

def decNat : List Nat → Option (Nat × List Nat)
  | [] => none
  | n :: r => some (n, r)

/-- Modelled from the spec: signed scalar encoding (tag + magnitude). -/
def encInt : Int → List Nat
  | .ofNat n => [0, n]
  | .negSucc n => [1, n]

def decInt : List Nat → Option (Int × List Nat)
  | 0 :: n :: r => some (.ofNat n, r)
  | 1 :: n :: r => some (.negSucc n, r)
  | _ => none

/-- Modelled from the spec: length-prefixed string encoding. -/
def encStr (s : String) : List Nat :=
  s.data.length :: s.data.map Char.toNat

def decChars : Nat → List Nat → Option (List Char × List Nat)
  | 0, r => some ([], r)
  | _ + 1, [] => none
  | n + 1, c :: r => (decChars n r).map (fun p => (Char.ofNat c :: p.1, p.2))

def decStr (l : List Nat) : Option (String × List Nat) := do
  let (n, r) ← decNat l
  let (cs, r) ← decChars n r
  some (cs.asString, r)

/-- Modelled from the spec: the `f64` stand-in `ℚ` as numerator/denominator. -/
def encRat (q : ℚ) : List Nat :=
  encInt q.num ++ encNat q.den

def decRat (l : List Nat) : Option (ℚ × List Nat) := do
  let (n, r) ← decInt l
  let (d, r) ← decNat r
  some ((n : ℚ) / (d : ℚ), r)

/-- Modelled from the spec: length-prefixed sequence encoding. -/
def encListWith (f : α → List Nat) (xs : List α) : List Nat :=
  xs.length :: (xs.map f).flatten

def decListWith (g : List Nat → Option (α × List Nat)) :
    Nat → List Nat → Option (List α × List Nat)
  | 0, r => some ([], r)
  | n + 1, r => do
    let (x, r) ← g r
    let (xs, r) ← decListWith g n r
    some (x :: xs, r)

def encEntry (p : String × ℚ) : List Nat :=
  encStr p.1 ++ encRat p.2

def decEntry (l : List Nat) : Option ((String × ℚ) × List Nat) := do
  let (s, r) ← decStr l
  let (q, r) ← decRat r
  some ((s, q), r)

def encDoc (d : IndexedDocument) : List Nat :=
  encStr d.path ++ encStr d.title ++ encStr d.description ++
    encListWith encEntry d.term_frequencies

def decDoc (l : List Nat) : Option (IndexedDocument × List Nat) := do
  let (p, r) ← decStr l
  let (t, r) ← decStr r
  let (de, r) ← decStr r
  let (n, r) ← decNat r
  let (tf, r) ← decListWith decEntry n r
  some (⟨p, t, de, tf⟩, r)

/-- Modelled from the spec: serialization of the whole `CacheContainer`. -/
def encContainer (c : CacheContainer) : List Nat :=
  encNat c.docs_path_hash ++ encListWith encDoc c.documents ++
    encListWith encEntry c.idf

def decContainer (l : List Nat) : Option CacheContainer := do
  let (h, r) ← decNat l
  let (nd, r) ← decNat r
  let (docs, r) ← decListWith decDoc nd r
  let (ni, r) ← decNat r
  let (idf, _) ← decListWith decEntry ni r
  some ⟨h, docs, idf⟩

/-- `save_to_cache`: serialize a container holding the current path hash,
documents and idf map. -/
def save_to_cache (pathHash : Nat) (st : SearcherState) : List Nat :=
  encContainer ⟨pathHash, st.documents, st.idf⟩

/-- `load_from_cache` on an existing cache file: a deserialization failure is
an `Err` (treated as a miss by `new`); a hash mismatch returns `Ok(false)`
(`none`, rebuild); otherwise the documents and idf map are installed. -/
def load_from_cache (bytes : List Nat) (currentHash : Nat) :
    Except Unit (Option SearcherState) :=
  match decContainer bytes with
  | none => .error ()
  | some c =>
    if c.docs_path_hash ≠ currentHash then .ok none
    else .ok (some ⟨c.documents, c.idf⟩)

/-- Specification-side candidate list for a query: one result per indexed
document, in document (discovery) order, keeping exactly the documents whose
score is strictly positive. -/
def searchCandidates (st : SearcherState) (query : String) : List DocSearchResult :=
  (st.documents.map (fun d => resultOf st d (tokenize query))).filter
    (fun r => 0 < r.relevance_score)

/-! ## Tokenizer lemmas -/

theorem rustSplitAux_append_notSep (sep : Char → Bool) (l₁ l₂ : List Char)
    (h : ∀ c ∈ l₁, sep c = false) :
    rustSplitAux sep (l₁ ++ l₂) =
      (l₁ ++ (rustSplitAux sep l₂).1, (rustSplitAux sep l₂).2) := by
  induction l₁ with
  | nil => simp
  | cons c cs ih =>
    have hc : sep c = false := h c (List.mem_cons_self c cs)
    have ih' := ih (fun x hx => h x (List.mem_cons_of_mem c hx))
    simp [rustSplitAux, hc, ih']

theorem dropWhile_head_false {p : α → Bool} :
    ∀ {l : List α} {d : α} {ds : List α}, l.dropWhile p = d :: ds → p d = false := by
  intro l
  induction l with
  | nil => intro d ds h; simp [List.dropWhile] at h
  | cons c cs ih =>
    intro d ds h
    rw [List.dropWhile_cons] at h
    by_cases hc : p c = true
    · exact ih (by simpa [hc] using h)
    · simp only [hc, if_false] at h
      cases h
      simpa using hc

/-- The nonempty segments produced by Rust's `split` on separator predicate
`sep` are exactly the maximal runs of non-separator characters. -/
theorem filter_rustSplit_eq_alnumRuns (sep : Char → Bool) (l : List Char) :
    (rustSplit sep l).filter (fun s => !s.isEmpty) =
      alnumRuns (fun c => !sep c) l := by
  generalize hn : l.length = n
  induction n using Nat.strong_induction_on generalizing l with
  | _ n ih =>
  match l, hn with
  | [], _ => simp [rustSplit, rustSplitAux, alnumRuns]
  | c :: cs, hn =>
    by_cases hc : sep c = true
    · have haux : rustSplitAux sep (c :: cs) =
          ([], (rustSplitAux sep cs).1 :: (rustSplitAux sep cs).2) := by
        simp [rustSplitAux, hc]
      have h2 : rustSplit sep (c :: cs) = [] :: rustSplit sep cs := by
        rw [rustSplit, rustSplit, haux]
      rw [h2, List.filter_cons]
      simp only [List.isEmpty_nil, Bool.not_true, Bool.false_eq_true, if_false]
      rw [alnumRuns]
      simp only [hc, Bool.not_true, Bool.false_eq_true, if_false]
      exact ih cs.length (by simp only [List.length_cons] at hn; omega) cs rfl
    · have hc' : sep c = false := by simpa using hc
      set p : Char → Bool := fun c => !sep c with hp
      have hpc : p c = true := by simp [hp, hc']
      have hsplit : c :: cs = (c :: cs.takeWhile p) ++ cs.dropWhile p := by
        simp [List.takeWhile_append_dropWhile]
      have hall : ∀ x ∈ c :: cs.takeWhile p, sep x = false := by
        intro x hx
        rcases List.mem_cons.mp hx with rfl | hx
        · exact hc'
        · have := List.mem_takeWhile_imp hx
          simpa [hp] using this
      rw [alnumRuns]
      simp only [hpc, if_true]
      rcases hd : cs.dropWhile p with _ | ⟨d, ds⟩
      · -- no separator remains: one single run
        have : rustSplitAux sep (c :: cs) = (c :: cs.takeWhile p, []) := by
          rw [hsplit, hd, rustSplitAux_append_notSep sep _ [] hall]
          simp [rustSplitAux]
        rw [rustSplit, this]
        simp [alnumRuns, hd]
      · have hdsep : sep d = true := by
          have := dropWhile_head_false (p := p) hd
          simpa [hp] using this
        have haux : rustSplitAux sep (c :: cs) =
            (c :: cs.takeWhile p,
              (rustSplitAux sep ds).1 :: (rustSplitAux sep ds).2) := by
          rw [hsplit, hd, rustSplitAux_append_notSep sep _ (d :: ds) hall]
          simp [rustSplitAux, hdsep]
        have h2 : rustSplit sep (c :: cs) =
            (c :: cs.takeWhile p) :: rustSplit sep ds := by
          rw [rustSplit, rustSplit, haux]
        rw [h2, List.filter_cons]
        simp only [List.isEmpty_cons, Bool.not_false, if_true]
        have hlen : ds.length < n := by
          have h1 : (cs.dropWhile p).length ≤ cs.length :=
            (cs.dropWhile_sublist p).length_le
          rw [hd] at h1
          simp only [List.length_cons] at h1 hn
          omega
        have hpd : p d = false := by simp [hp, hdsep]
        rw [alnumRuns, hpd]
        simp only [Bool.false_eq_true, if_false]
        exact List.cons_eq_cons.mpr ⟨rfl, ih ds.length hlen ds rfl⟩

/-- C7 (amended): the tokenizer returns exactly the maximal runs of
alphanumeric characters of the lower-cased input, in their original order with
duplicates retained, with every token of length ≤ 1 removed (the code's filter
is `s.len() > 1`, so length-2 tokens are kept).  The identical `tokenize`
function is used by `search` for queries and by the indexing pipeline for
document text (both call the single definition above). -/
theorem tokenize_is_filtered_maximal_runs (s : String) :
    tokenize s =
      ((alnumRuns Char.isAlphanum (s.data.map Char.toLower)).filter
        (fun t => 1 < t.length)).map List.asString := by
  unfold tokenize tokenizeChars
  have hsplit := filter_rustSplit_eq_alnumRuns (fun c => !c.isAlphanum)
    (s.data.map Char.toLower)
  have hnn : (fun c : Char => !(!c.isAlphanum)) = (fun c : Char => c.isAlphanum) := by
    funext c
    exact Bool.not_not c.isAlphanum
  rw [hnn] at hsplit
  have hcomb :
      (rustSplit (fun c => !c.isAlphanum) (s.data.map Char.toLower)).filter
          (fun t => !t.isEmpty && t.length > 1) =
        ((rustSplit (fun c => !c.isAlphanum) (s.data.map Char.toLower)).filter
          (fun t => !t.isEmpty)).filter (fun t => t.length > 1) := by
    rw [List.filter_filter]
    apply List.filter_congr
    intro t _
    exact Bool.and_comm _ _
  rw [hcomb, hsplit]

/-- C7 counterexample: the claim says every token of length ≤ 2 is discarded;
the code keeps the length-2 token `"io"`. -/
theorem tokenize_keeps_length_two_token :
    tokenize "io" = ["io"] ∧ "io".length ≤ 2 := by
  exact ⟨by decide, by decide⟩

/-! ## Term-frequency lemmas (the `tally` association-list counter) -/

theorem bump_lookup_self (m : List (String × Nat)) (t : String) :
    (bump m t).lookup t = some ((m.lookup t).getD 0 + 1) := by
  induction m with
  | nil => simp [bump, List.lookup]
  | cons p rest ih =>
    obtain ⟨s, k⟩ := p
    by_cases h : s = t
    · subst h
      simp [bump, List.lookup]
    · have h' : (t == s) = false := by simpa [beq_iff_eq] using Ne.symm h
      simp [bump, h, List.lookup, h', ih]

theorem bump_lookup_ne (m : List (String × Nat)) {t u : String} (h : u ≠ t) :
    (bump m t).lookup u = m.lookup u := by
  induction m with
  | nil =>
    have h' : (u == t) = false := by simpa [beq_iff_eq] using h
    simp [bump, List.lookup, h']
  | cons p rest ih =>
    obtain ⟨s, k⟩ := p
    by_cases hs : s = t
    · subst hs
      have h' : (u == s) = false := by simpa [beq_iff_eq] using h
      simp [bump, List.lookup, h']
    · by_cases hu : u = s
      · subst hu
        simp [bump, hs, List.lookup]
      · have h' : (u == s) = false := by simpa [beq_iff_eq] using hu
        simp [bump, hs, List.lookup, h', ih]

theorem bump_values_sum (m : List (String × Nat)) (t : String) :
    ((bump m t).map (fun p => p.2)).sum = (m.map (fun p => p.2)).sum + 1 := by
  induction m with
  | nil => simp [bump]
  | cons p rest ih =>
    obtain ⟨s, k⟩ := p
    by_cases h : s = t
    · subst h
      simp [bump]
      omega
    · simp [bump, h, ih]
      omega

theorem bump_keys_cases (m : List (String × Nat)) (t : String) :
    (bump m t).map (fun p => p.1) = m.map (fun p => p.1) ∨
      (bump m t).map (fun p => p.1) = m.map (fun p => p.1) ++ [t] := by
  induction m with
  | nil => right; simp [bump]
  | cons p rest ih =>
    obtain ⟨s, k⟩ := p
    by_cases h : s = t
    · subst h
      left
      simp [bump]
    · rcases ih with ih | ih
      · left
        simp [bump, h, ih]
      · right
        simp [bump, h, ih]

theorem bump_keys_nodup (m : List (String × Nat)) (t : String)
    (h : (m.map (fun p => p.1)).Nodup) : ((bump m t).map (fun p => p.1)).Nodup := by
  induction m with
  | nil => simp [bump]
  | cons p rest ih =>
    obtain ⟨s, k⟩ := p
    simp only [List.map_cons, List.nodup_cons] at h
    by_cases hs : s = t
    · subst hs
      simpa [bump] using h
    · have hrest := ih h.2
      have hstep : bump ((s, k) :: rest) t = (s, k) :: bump rest t := by
        simp [bump, hs]
      rw [hstep, List.map_cons, List.nodup_cons]
      refine ⟨?_, hrest⟩
      rcases bump_keys_cases rest t with hk | hk
      · rw [hk]
        exact h.1
      · rw [hk]
        simp only [List.mem_append, List.mem_singleton]
        rintro (hmem | rfl)
        · exact h.1 hmem
        · exact hs rfl

theorem lookup_eq_of_mem_nodup {m : List (String × Nat)}
    (h : (m.map (fun p => p.1)).Nodup) {p : String × Nat} (hp : p ∈ m) :
    m.lookup p.1 = some p.2 := by
  induction m with
  | nil => cases hp
  | cons q rest ih =>
    obtain ⟨s, k⟩ := q
    simp only [List.map_cons, List.nodup_cons] at h
    rcases List.mem_cons.mp hp with rfl | hp'
    · simp [List.lookup]
    · have hne : p.1 ≠ s := by
        intro he
        exact h.1 (he ▸ List.mem_map_of_mem (fun r => r.1) hp')
      have h' : (p.1 == s) = false := by simpa [beq_iff_eq] using hne
      simp [List.lookup, h', ih h.2 hp']

theorem foldl_bump_lookup_getD (terms : List String) (m : List (String × Nat))
    (t : String) :
    ((terms.foldl bump m).lookup t).getD 0 = (m.lookup t).getD 0 + terms.count t := by
  induction terms generalizing m with
  | nil => simp
  | cons a rest ih =>
    rw [List.foldl_cons, ih (bump m a)]
    by_cases h : a = t
    · subst h
      rw [bump_lookup_self]
      simp [List.count_cons]
      omega
    · rw [bump_lookup_ne m (Ne.symm h)]
      have : rest.count t = (a :: rest).count t := by
        simp [List.count_cons, h]
      omega

theorem foldl_bump_lookup_none (terms : List String) (m : List (String × Nat))
    (t : String) :
    (terms.foldl bump m).lookup t = none ↔
      m.lookup t = none ∧ terms.count t = 0 := by
  induction terms generalizing m with
  | nil => simp
  | cons a rest ih =>
    rw [List.foldl_cons, ih (bump m a)]
    by_cases h : a = t
    · subst h
      rw [bump_lookup_self]
      simp [List.count_cons]
    · rw [bump_lookup_ne m (Ne.symm h)]
      simp [List.count_cons, h]

theorem foldl_bump_keys_nodup (terms : List String) (m : List (String × Nat))
    (h : (m.map (fun p => p.1)).Nodup) :
    (((terms.foldl bump m)).map (fun p => p.1)).Nodup := by
  induction terms generalizing m with
  | nil => simpa
  | cons a rest ih => exact ih (bump m a) (bump_keys_nodup m a h)

theorem foldl_bump_values_sum (terms : List String) (m : List (String × Nat)) :
    ((terms.foldl bump m).map (fun p => p.2)).sum =
      (m.map (fun p => p.2)).sum + terms.length := by
  induction terms generalizing m with
  | nil => simp
  | cons a rest ih =>
    rw [List.foldl_cons, ih (bump m a), bump_values_sum]
    simp
    omega

theorem tally_lookup (terms : List String) (t : String) :
    (tally terms).lookup t =
      if terms.count t = 0 then none else some (terms.count t) := by
  rw [tally]
  by_cases hc : terms.count t = 0
  · simp only [hc, if_true]
    exact (foldl_bump_lookup_none terms [] t).mpr ⟨by simp [List.lookup], hc⟩
  · simp only [hc, if_false]
    have h1 := foldl_bump_lookup_getD terms [] t
    rcases hl : (terms.foldl bump []).lookup t with _ | k
    · exact absurd ((foldl_bump_lookup_none terms [] t).mp hl).2 hc
    · rw [hl] at h1
      simp only [Option.getD_some, List.lookup, Option.getD_none] at h1
      rw [h1, Nat.zero_add]

theorem tally_mem_count (terms : List String) {p : String × Nat}
    (hp : p ∈ tally terms) : p.2 = terms.count p.1 ∧ 0 < p.2 := by
  have hnd := foldl_bump_keys_nodup terms [] (by simp)
  have hl := lookup_eq_of_mem_nodup (by simpa [tally] using hnd) hp
  rw [tally_lookup] at hl
  by_cases hc : terms.count p.1 = 0
  · simp [hc] at hl
  · simp only [hc, if_false, Option.some.injEq] at hl
    omega

theorem tally_values_sum (terms : List String) :
    ((tally terms).map (fun p => p.2)).sum = terms.length := by
  simpa [tally] using foldl_bump_values_sum terms []

theorem lookup_map_values (m : List (String × Nat)) (c : ℚ) (t : String) :
    (m.map (fun p => (p.1, (p.2 : ℚ) / c))).lookup t =
      (m.lookup t).map (fun k => (k : ℚ) / c) := by
  induction m with
  | nil => simp [List.lookup]
  | cons p rest ih =>
    obtain ⟨s, k⟩ := p
    by_cases h : t = s
    · subst h
      simp [List.lookup]
    · have h' : (t == s) = false := by simpa [beq_iff_eq] using h
      simp [List.lookup, h', ih]

theorem sum_map_cast_div (m : List (String × Nat)) (c : ℚ) :
    ((m.map (fun p => ((p.2 : ℚ) / c))).sum) =
      (((m.map (fun p => p.2)).sum : ℕ) : ℚ) / c := by
  induction m with
  | nil => simp
  | cons p rest ih =>
    simp only [List.map_cons, List.sum_cons, ih]
    push_cast
    ring

/-- C3 (amended): for a file yielding a non-zero number of usable terms, each
term occurring `k` times among the `n` extracted terms is stored with
frequency exactly `k/n`, every stored value lies in `(0, 1] ⊆ [0, 1]`, and the
values sum to exactly 1; a file yielding zero usable terms produces no
`IndexedDocument` — but, unlike the claim says, it still counts toward the
file total `total_docs` that `build_index` uses as N in the idf formula. -/
theorem computeTF_spec (terms : List String) :
    (terms = [] → computeTF terms = none) ∧
    (terms ≠ [] → ∃ tf, computeTF terms = some tf ∧
      (∀ t, 0 < terms.count t →
        tf.lookup t = some ((terms.count t : ℚ) / (terms.length : ℚ))) ∧
      (∀ t, terms.count t = 0 → tf.lookup t = none) ∧
      (∀ p ∈ tf, 0 < p.2 ∧ p.2 ≤ 1) ∧
      (tf.map (fun p => p.2)).sum = 1) ∧
    (∀ files : List FileOutcome, totalDocs (files ++ [.ok none]) = totalDocs files + 1) := by
  refine ⟨fun h => by simp [computeTF, h], fun h => ?_, fun files => by simp [totalDocs]⟩
  have hn : terms.length ≠ 0 := fun h0 => h (List.eq_nil_of_length_eq_zero h0)
  have hnQ : (terms.length : ℚ) ≠ 0 := Nat.cast_ne_zero.mpr hn
  refine ⟨(tally terms).map (fun p => (p.1, (p.2 : ℚ) / (terms.length : ℚ))), ?_, ?_, ?_, ?_, ?_⟩
  · simp [computeTF, hn]
  · intro t ht
    rw [lookup_map_values, tally_lookup]
    simp [Nat.pos_iff_ne_zero.mp ht]
  · intro t ht
    rw [lookup_map_values, tally_lookup]
    simp [ht]
  · intro p hp
    obtain ⟨q, hq, rfl⟩ := List.mem_map.mp hp
    obtain ⟨hcount, hpos⟩ := tally_mem_count terms hq
    constructor
    · apply div_pos
      · exact_mod_cast hpos
      · exact_mod_cast Nat.pos_of_ne_zero hn
    · rw [div_le_one (by exact_mod_cast Nat.pos_of_ne_zero hn)]
      have hle : q.2 ≤ terms.length := by
        rw [hcount]
        exact List.count_le_length _ _
      exact_mod_cast hle
  · rw [List.map_map]
    have hmm : ((fun p : String × ℚ => p.2) ∘
        (fun p : String × Nat => (p.1, (p.2 : ℚ) / (terms.length : ℚ)))) =
        (fun p : String × Nat => (p.2 : ℚ) / (terms.length : ℚ)) := rfl
    rw [hmm, sum_map_cast_div, tally_values_sum]
    exact div_self hnQ

/-- Witness for `computeTF_spec` at the concrete term list
`["ab", "cd", "ab"]`: the frequency of `"ab"` is `2/3` and the values sum
to 1. -/
theorem computeTF_spec_witness :
    ∃ tf, computeTF ["ab", "cd", "ab"] = some tf ∧
      tf.lookup "ab" = some ((2 : ℚ) / 3) ∧
      (tf.map (fun p => p.2)).sum = 1 := by
  obtain ⟨tf, h1, h2, _, _, h5⟩ :=
    (computeTF_spec ["ab", "cd", "ab"]).2.1 (by decide)
  refine ⟨tf, h1, ?_, h5⟩
  have hc : List.count "ab" ["ab", "cd", "ab"] = 2 := by decide
  have hab := h2 "ab" (by decide)
  rw [hc] at hab
  simpa using hab

/-- C3 counterexample: the claim says a file yielding zero usable terms does
not count toward N.  With one indexed document (its only term `"foo"`) and one
zero-term file, the claim forces `idf("foo") = ln(1/1) = 0`, but
`build_index` counts both files (`total_docs = 2`) and stores
`ln 2 ≠ 0`. -/
theorem zero_term_file_counts_in_total :
    idfValueIs
        [Except.ok (some ⟨"a.html", "A", "", [("foo", 1)]⟩), Except.ok none]
        "foo" (some (Real.log 2)) ∧
      Real.log 2 ≠ 0 := by
  constructor
  · have h : idfRatioAt
        [Except.ok (some ⟨"a.html", "A", "", [("foo", 1)]⟩), Except.ok none]
        "foo" = some 2 := by
      norm_num [idfRatioAt, dfCount, totalDocs, indexedDocs, hasTerm,
        List.countP, List.countP.go, List.filterMap, List.lookup]
    unfold idfValueIs
    rw [h]
    norm_num
  · exact (Real.log_pos one_lt_two).ne'

/-! ## IDF lemmas (`build_index`) -/

theorem indexedDocs_map_ok (docs : List IndexedDocument) :
    indexedDocs (docs.map (fun d => Except.ok (some d))) = docs := by
  induction docs with
  | nil => rfl
  | cons d rest ih =>
    simpa [indexedDocs, List.filterMap_cons] using ih

/-- C1 (amended): the idf map contains every term present in at least one
indexed document with value `ln(F / df(t))`, where `F` is the number of HTML
files found (not the number of indexed documents, as the claim states) and
`df(t)` the number of indexed documents containing `t`; terms in no indexed
document are absent; a term in exactly one document gets `ln F`; and when
every found file yields an indexed document, a term present in every document
gets idf exactly 0. -/
theorem idf_ln_total_over_df (files : List FileOutcome) (t : String) :
    ((∃ d ∈ indexedDocs files, hasTerm d t = true) →
      idfValueIs files t
        (some (Real.log ((totalDocs files : ℝ) / (dfCount files t : ℝ))))) ∧
    ((∀ d ∈ indexedDocs files, hasTerm d t = false) → idfValueIs files t none) ∧
    (dfCount files t = 1 →
      idfValueIs files t (some (Real.log (totalDocs files : ℝ)))) ∧
    (∀ docs : List IndexedDocument, docs ≠ [] →
      (∀ d ∈ docs, hasTerm d t = true) →
      idfValueIs (docs.map (fun d => Except.ok (some d))) t (some 0)) := by
  refine ⟨?_, ?_, ?_, ?_⟩
  · intro hex
    have hpos : 0 < dfCount files t := by
      rw [dfCount, List.countP_pos_iff]
      exact hex
    unfold idfValueIs idfRatioAt
    rw [if_neg (Nat.pos_iff_ne_zero.mp hpos)]
    show some _ = some _
    congr 1
    push_cast
    ring
  · intro hall
    have hz : dfCount files t = 0 := by
      rw [dfCount, List.countP_eq_zero]
      intro d hd
      simp [hall d hd]
    unfold idfValueIs idfRatioAt
    rw [if_pos hz]
    rfl
  · intro h1
    unfold idfValueIs idfRatioAt
    rw [h1]
    norm_num
  · intro docs hne hall
    have hdocs : indexedDocs (docs.map (fun d => Except.ok (some d))) = docs :=
      indexedDocs_map_ok docs
    have hdf : dfCount (docs.map (fun d => Except.ok (some d))) t = docs.length := by
      rw [dfCount, hdocs]
      exact List.countP_eq_length.mpr (fun d hd => by simp [hall d hd])
    have htot : totalDocs (docs.map (fun d => Except.ok (some d))) = docs.length := by
      simp [totalDocs]
    have hlen : docs.length ≠ 0 := fun h0 => hne (List.eq_nil_of_length_eq_zero h0)
    unfold idfValueIs idfRatioAt
    rw [hdf, htot, if_neg hlen]
    have : ((docs.length : ℚ) / (docs.length : ℚ)) = 1 :=
      div_self (Nat.cast_ne_zero.mpr hlen)
    rw [this]
    simp [Real.log_one]

/-- Witness for `idf_ln_total_over_df`: one file, one document containing
`"foo"`, so the stored idf of `"foo"` is exactly 0. -/
theorem idf_ln_total_over_df_witness :
    idfValueIs
      [Except.ok (some (⟨"a.html", "A", "", [("foo", 1)]⟩ : IndexedDocument))]
      "foo" (some 0) := by
  have h := (idf_ln_total_over_df [] "foo").2.2.2
    [⟨"a.html", "A", "", [("foo", 1)]⟩] (by decide) (by decide)
  simpa using h

/-- C1 counterexample: with one indexed document (its only term `"bar"`) and
one file whose processing errs, the claim says N = 1 and
`idf("bar") = ln(1/1) = 0`; the code divides by the found-file count 2 and
stores `ln 2 ≠ 0`. -/
theorem idf_counts_unprocessed_files :
    idfValueIs
        [Except.ok (some ⟨"b.html", "B", "", [("bar", 1)]⟩), Except.error "io"]
        "bar" (some (Real.log 2)) ∧
      Real.log 2 ≠ 0 := by
  constructor
  · have h : idfRatioAt
        [Except.ok (some ⟨"b.html", "B", "", [("bar", 1)]⟩), Except.error "io"]
        "bar" = some 2 := by
      norm_num [idfRatioAt, dfCount, totalDocs, indexedDocs, hasTerm,
        List.countP, List.countP.go, List.filterMap, List.lookup]
    unfold idfValueIs
    rw [h]
    norm_num
  · exact (Real.log_pos one_lt_two).ne'

/-! ## Description truncation (claim C5) -/

set_option maxRecDepth 4000 in
/-- C5: the description computation is NOT defined for every input.  The code
truncates with the byte slice `&trimmed[..200]`; on a first-paragraph text of
199 `'a'` characters followed by two `'é'` characters (byte length 203), byte
offset 200 falls inside the first `'é'`, so the slice is not on a character
boundary and the code panics — modelled here as `none`.  (When no
paragraph-like block exists the description is the empty string, as
claimed.) -/
theorem description_truncation_undefined_on_char_boundary :
    descriptionOf (some (List.replicate 199 'a' ++ ['é', 'é'])) = none ∧
    byteLen (rustTrim (List.replicate 199 'a' ++ ['é', 'é'])) = 203 ∧
    descriptionOf none = some [] := by
  refine ⟨by decide, by decide, rfl⟩

/-! ## Constructor behaviour on build failure (claim C6) -/

/-- C6 counterexample: after a catastrophic build failure the constructor
only logs the error and keeps an empty index; a subsequent query returns the
empty list — not a single synthetic result embedding the failure message as
the claim states. -/
theorem failed_build_returns_empty_not_synthetic :
    ¬ (search (newSearcher (.error "root enumeration failed")) "docs query").length = 1 := by
  have hempty : search (newSearcher (.error "root enumeration failed")) "docs query" = [] := by
    show search ⟨[], []⟩ "docs query" = []
    unfold search
    by_cases h : (tokenize "docs query").isEmpty
    · simp [h]
    · simp only [h, Bool.false_eq_true, if_false, List.filterMap_nil,
        List.mergeSort_nil, List.take_nil]
  rw [hempty]
  simp

/-- C6 (amended): if the build fails, the constructor logs the failure and
returns a searcher whose index is empty; every subsequent query returns an
empty result list (no exception, no synthetic result). -/
theorem failed_build_queries_return_empty (msg query : String) :
    search (newSearcher (.error msg)) query = [] := by
  show search ⟨[], []⟩ query = []
  unfold search
  by_cases h : (tokenize query).isEmpty
  · simp [h]
  · simp only [h, Bool.false_eq_true, if_false, List.filterMap_nil,
      List.mergeSort_nil, List.take_nil]

/-! ## Corpus walker lemmas (claim C4) -/

mutual

theorem findHtmlFiles_ok : ∀ (n : FsNode), walkOk n = true →
    findHtmlFiles n = .ok (allHtmlFiles n)
  | .file _ _, _ => rfl
  | .badEntry, _ => rfl
  | .dir p r es, h => by
    have hr : r = true ∧ walkOkEntries es = true := by
      simpa [walkOk, Bool.and_eq_true] using h
    rw [findHtmlFiles, allHtmlFiles, if_pos hr.1]
    exact findInEntries_ok es hr.2

theorem findInEntries_ok : ∀ (es : List FsNode), walkOkEntries es = true →
    findInEntries es = .ok (allHtmlInEntries es)
  | [], _ => rfl
  | .badEntry :: rest, h => by
    simp [walkOkEntries, walkOk] at h
  | .file p ext :: rest, h => by
    have hrest : walkOkEntries rest = true := by
      simpa [walkOkEntries, walkOk, Bool.and_eq_true] using h
    rw [findInEntries, allHtmlInEntries, findInEntries_ok rest hrest]
    rfl
  | .dir p r cs :: rest, h => by
    have hr : walkOk (.dir p r cs) = true ∧ walkOkEntries rest = true := by
      simpa [walkOkEntries, Bool.and_eq_true] using h
    rw [findInEntries, allHtmlInEntries, findHtmlFiles_ok (.dir p r cs) hr.1,
      findInEntries_ok rest hr.2]
    rfl

end

mutual

theorem findHtmlFiles_err : ∀ (p : String) (r : Bool) (es : List FsNode),
    walkOk (.dir p r es) = false → findHtmlFiles (.dir p r es) = .error ()
  | p, false, es, _ => by
    rw [findHtmlFiles]
    rfl
  | p, true, es, h => by
    have hes : walkOkEntries es = false := by
      simpa [walkOk] using h
    rw [findHtmlFiles, if_pos rfl]
    exact findInEntries_err es hes

theorem findInEntries_err : ∀ (es : List FsNode), walkOkEntries es = false →
    findInEntries es = .error ()
  | [], h => by simp [walkOkEntries] at h
  | .badEntry :: rest, _ => by rw [findInEntries]
  | .file p ext :: rest, h => by
    have hrest : walkOkEntries rest = false := by
      simpa [walkOkEntries, walkOk] using h
    rw [findInEntries, findInEntries_err rest hrest]
    rfl
  | .dir p r cs :: rest, h => by
    rcases hd : walkOk (.dir p r cs) with _ | _
    · rw [findInEntries, findHtmlFiles_err p r cs hd]
      rfl
    · have hrest : walkOkEntries rest = false := by
        rw [walkOkEntries, hd] at h
        simpa using h
      rw [findInEntries, findHtmlFiles_ok (.dir p r cs) hd,
        findInEntries_err rest hrest]
      rfl

end

/-- C4 (amended): a root that is not a directory (including a missing root)
yields the empty file list with no error, and an empty file list produces the
zero-document index; when every directory in the tree is readable and every
entry read succeeds, the surfaced files are exactly the files with extension
`html` of the recursive tree, in traversal order; but an unreadable directory
or a failed entry read anywhere in the tree — the root included — aborts the
entire walk with an error instead of being silently skipped (the constructor
then logs the failure and keeps an empty index).  `build_index` walks the
`std` subdirectory of the configured docs path. -/
theorem corpus_walker_spec :
    (∀ p e, findHtmlFiles (.file p e) = .ok []) ∧
    (∀ n, walkOk n = true → findHtmlFiles n = .ok (allHtmlFiles n)) ∧
    (∀ p r es, walkOk (.dir p r es) = false →
      findHtmlFiles (.dir p r es) = .error ()) ∧
    (indexedDocs [] = [] ∧ ∀ t, idfRatioAt [] t = none) :=
  ⟨fun _ _ => rfl, findHtmlFiles_ok, findHtmlFiles_err, rfl, fun _ => rfl⟩

/-- Witness for `corpus_walker_spec`: a concrete fully readable tree with two
HTML files (one nested) and one non-HTML file. -/
theorem corpus_walker_spec_witness :
    findHtmlFiles (.dir "std" true
        [.file "std/index.html" (some "html"),
         .file "std/style.css" (some "css"),
         .dir "std/vec" true [.file "std/vec/struct.Vec.html" (some "html")]]) =
      .ok ["std/index.html", "std/vec/struct.Vec.html"] := by
  have h := corpus_walker_spec.2.1
    (.dir "std" true
      [.file "std/index.html" (some "html"),
       .file "std/style.css" (some "css"),
       .dir "std/vec" true [.file "std/vec/struct.Vec.html" (some "html")]])
    (by rfl)
  simpa using h

/-- C4 counterexample: a readable root holding an unreadable subdirectory and
an HTML file.  The claim says the unreadable directory is silently skipped and
`std/b.html` is surfaced; the code aborts the whole walk with an error. -/
theorem unreadable_subdir_aborts_walk :
    findHtmlFiles
        (.dir "std" true [.dir "std/sub" false [], .file "std/b.html" (some "html")]) =
      .error () ∧
    (Except.error () : Except Unit (List String)) ≠ .ok ["std/b.html"] := by
  exact ⟨rfl, by simp⟩

/-! ## Query-engine lemmas (claims C2 and C10) -/

theorem scoreGE_trans (a b c : DocSearchResult) :
    scoreGE a b → scoreGE b c → scoreGE a c := by
  simp only [scoreGE, decide_eq_true_eq]
  exact fun hab hbc => le_trans hbc hab

theorem scoreGE_total (a b : DocSearchResult) : scoreGE a b || scoreGE b a := by
  simp only [scoreGE, Bool.or_eq_true, decide_eq_true_eq]
  exact le_total _ _

/-- The push loop of `search` builds exactly the in-order positive-score
candidate list. -/
theorem search_results_eq_candidates (st : SearcherState) (q : String) :
    (st.documents.filterMap (fun doc =>
        if 0 < docScore st doc (tokenize q) then some (resultOf st doc (tokenize q))
        else none)) =
      searchCandidates st q := by
  unfold searchCandidates
  generalize st.documents = docs
  induction docs with
  | nil => rfl
  | cons d rest ih =>
    by_cases h : 0 < docScore st d (tokenize q)
    · simp only [List.filterMap_cons, h, if_true, List.map_cons, List.filter_cons,
        ih]
      have hsc : decide (0 < (resultOf st d (tokenize q)).relevance_score) = true := by
        simpa [resultOf] using h
      rw [hsc]
      simp
    · simp only [List.filterMap_cons, h, if_false, List.map_cons, List.filter_cons,
        ih]
      have hsc : decide (0 < (resultOf st d (tokenize q)).relevance_score) = false := by
        simpa [resultOf] using h
      rw [hsc]
      simp

theorem search_eq_sorted_take (st : SearcherState) (q : String)
    (h : (tokenize q).isEmpty = false) :
    search st q = ((searchCandidates st q).mergeSort scoreGE).take 10 := by
  simp only [search, h, Bool.false_eq_true, if_false]
  rw [search_results_eq_candidates]

theorem searchCandidates_of_empty (st : SearcherState) (q : String)
    (hq : tokenize q = []) : searchCandidates st q = [] := by
  unfold searchCandidates
  rw [List.filter_eq_nil_iff]
  intro r hr
  obtain ⟨d, _, rfl⟩ := List.mem_map.mp hr
  simp [resultOf, docScore, hq]

/-- C2: if the query tokenizes to zero terms, `search` returns the empty list
(and no error; the embedding is a total function).  Otherwise the output is
sorted by descending score, holds at most 10 entries, every entry is an
indexed document with strictly positive score paired with exactly that score,
a candidate list that fits the bound is returned whole (as a permutation),
for a non-empty query the output is exactly the first 10 entries of the
stably descending-sorted positive-score candidate list, and no discarded
candidate outscores any returned result — so the output is exactly the
positive-score documents, sorted descending, truncated to the fixed
top-N (N = 10). -/
theorem search_spec (st : SearcherState) (q : String) :
    (tokenize q = [] → search st q = []) ∧
    (search st q).Pairwise
      (fun a b => b.relevance_score ≤ a.relevance_score) ∧
    (search st q).length ≤ 10 ∧
    (∀ r ∈ search st q, 0 < r.relevance_score ∧
      ∃ d ∈ st.documents, r = resultOf st d (tokenize q)) ∧
    ((searchCandidates st q).length ≤ 10 →
      (search st q).Perm (searchCandidates st q)) ∧
    (¬ tokenize q = [] →
      search st q = ((searchCandidates st q).mergeSort scoreGE).take 10) ∧
    (∀ c ∈ searchCandidates st q, c ∉ search st q →
      ∀ r ∈ search st q, c.relevance_score ≤ r.relevance_score) := by
  rcases hcase : (tokenize q).isEmpty with _ | _
  · have hne : ¬ tokenize q = [] := by
      intro h
      rw [h] at hcase
      simp at hcase
    have hs := search_eq_sorted_take st q hcase
    refine ⟨fun h => absurd h hne, ?_, ?_, ?_, ?_, fun _ => hs, ?_⟩
    · rw [hs]
      have hsorted :=
        List.sorted_mergeSort scoreGE_trans scoreGE_total (searchCandidates st q)
      have hsub := List.Pairwise.sublist (List.take_sublist 10 _) hsorted
      exact hsub.imp (fun h => by simpa [scoreGE] using h)
    · rw [hs]
      simp [List.length_take]
    · intro r hr
      rw [hs] at hr
      have hr2 : r ∈ (searchCandidates st q).mergeSort scoreGE :=
        List.mem_of_mem_take hr
      rw [List.mem_mergeSort] at hr2
      unfold searchCandidates at hr2
      have hpos := List.of_mem_filter hr2
      have hmem := List.mem_of_mem_filter hr2
      obtain ⟨d, hd, rfl⟩ := List.mem_map.mp hmem
      exact ⟨of_decide_eq_true hpos, d, hd, rfl⟩
    · intro hlen
      rw [hs, List.take_of_length_le (by rwa [List.length_mergeSort])]
      exact List.mergeSort_perm _ _
    · intro c hc hcnot r hr
      rw [hs] at hcnot hr
      have hcsorted : c ∈ (searchCandidates st q).mergeSort scoreGE :=
        List.mem_mergeSort.mpr hc
      have hcdrop : c ∈ ((searchCandidates st q).mergeSort scoreGE).drop 10 := by
        rcases List.mem_append.mp (by
          rw [List.take_append_drop 10 ((searchCandidates st q).mergeSort scoreGE)]
          exact hcsorted) with h | h
        · exact absurd h hcnot
        · exact h
      have hsorted :=
        List.sorted_mergeSort scoreGE_trans scoreGE_total (searchCandidates st q)
      rw [← List.take_append_drop 10 ((searchCandidates st q).mergeSort scoreGE)]
        at hsorted
      have hcross := (List.pairwise_append.mp hsorted).2.2 r hr c hcdrop
      simpa [scoreGE] using hcross
  · have hqnil : tokenize q = [] := by
      rw [← List.isEmpty_iff]
      exact hcase
    have hempty : search st q = [] := by
      simp [search, hcase]
    refine ⟨fun _ => hempty, ?_, ?_, ?_, ?_, fun hq' => absurd hqnil hq', ?_⟩
    · rw [hempty]
      exact List.Pairwise.nil
    · rw [hempty]
      simp
    · intro r hr
      rw [hempty] at hr
      cases hr
    · intro _
      rw [hempty, searchCandidates_of_empty st q hqnil]
    · intro c _ _ r hr
      rw [hempty] at hr
      cases hr

/-- Witness for `search_spec`: a one-document index where the query matches;
the untruncated output is a permutation of the candidate list, and the output
equals the top-10 prefix of the stably sorted candidates. -/
theorem search_spec_witness :
    (search ⟨[⟨"a.html", "A", "", [("vector", (1 : ℚ)/2)]⟩], [("vector", 3)]⟩
        "vector").Perm
      (searchCandidates
        ⟨[⟨"a.html", "A", "", [("vector", (1 : ℚ)/2)]⟩], [("vector", 3)]⟩
        "vector") ∧
    search ⟨[⟨"a.html", "A", "", [("vector", (1 : ℚ)/2)]⟩], [("vector", 3)]⟩
        "vector" =
      ((searchCandidates
          ⟨[⟨"a.html", "A", "", [("vector", (1 : ℚ)/2)]⟩], [("vector", 3)]⟩
          "vector").mergeSort scoreGE).take 10 := by
  constructor
  · apply (search_spec _ "vector").2.2.2.2.1
    unfold searchCandidates
    exact le_trans (List.length_filter_le _ _) (by simp)
  · exact (search_spec _ "vector").2.2.2.2.2.1 (by decide)

theorem filter_take_prefix {α : Type} (p : α → Bool) (n : Nat) (l : List α) :
    (l.take n).filter p <+: l.filter p := by
  conv_rhs => rw [← List.take_append_drop n l]
  rw [List.filter_append]
  exact ⟨_, rfl⟩

/-- Stability of the sort on an equal-score class: filtering the sorted
candidates to one score value gives back the in-order candidates with that
score. -/
theorem mergeSort_filter_const_score (cand : List DocSearchResult) (s : ℚ) :
    ((cand.mergeSort scoreGE).filter (fun r => decide (r.relevance_score = s))) =
      cand.filter (fun r => decide (r.relevance_score = s)) := by
  set p : DocSearchResult → Bool := fun r => decide (r.relevance_score = s) with hp
  have hpair : (cand.filter p).Pairwise (fun a b => scoreGE a b = true) := by
    apply List.pairwise_of_forall_mem_list
    intro a ha b hb
    have ha' : a.relevance_score = s := by
      have := List.of_mem_filter ha
      simpa [hp] using this
    have hb' : b.relevance_score = s := by
      have := List.of_mem_filter hb
      simpa [hp] using this
    simp [scoreGE, ha', hb']
  have hsub : List.Sublist (cand.filter p) (cand.mergeSort scoreGE) :=
    List.sublist_mergeSort scoreGE_trans scoreGE_total hpair (List.filter_sublist cand)
  have hsub2 : List.Sublist (cand.filter p) ((cand.mergeSort scoreGE).filter p) := by
    have h := hsub.filter p
    rwa [List.filter_filter,
      List.filter_congr (fun a _ => Bool.and_self (p a))] at h
  have hlen : ((cand.mergeSort scoreGE).filter p).length = (cand.filter p).length :=
    ((List.mergeSort_perm cand scoreGE).filter p).length_eq
  exact (hsub2.eq_of_length hlen.symm).symm

/-- C10: the candidate list is built in document (discovery) order, the sort
is stable, and truncation keeps a prefix — so for every score value the
results carrying that score appear in the output in the documents' original
indexing order (a prefix of the in-order candidates with that score), and the
whole output is a function of the index and the query. -/
theorem search_equal_scores_in_document_order (st : SearcherState) (q : String)
    (s : ℚ) :
    (search st q).filter (fun r => decide (r.relevance_score = s)) <+:
      (searchCandidates st q).filter (fun r => decide (r.relevance_score = s)) := by
  rcases hcase : (tokenize q).isEmpty with _ | _
  · rw [search_eq_sorted_take st q hcase]
    have h1 := filter_take_prefix (fun r => decide (r.relevance_score = s)) 10
      ((searchCandidates st q).mergeSort scoreGE)
    rwa [mergeSort_filter_const_score] at h1
  · have hempty : search st q = [] := by
      simp [search, hcase]
    rw [hempty]
    simp

/-! ## Cache round-trip lemmas (claim C8) -/

theorem decNat_enc (n : Nat) (r : List Nat) : decNat (encNat n ++ r) = some (n, r) :=
  rfl

theorem decInt_enc (i : Int) (r : List Nat) : decInt (encInt i ++ r) = some (i, r) := by
  cases i <;> rfl

theorem decChars_enc (cs : List Char) (r : List Nat) :
    decChars cs.length (cs.map Char.toNat ++ r) = some (cs, r) := by
  induction cs with
  | nil => rfl
  | cons c rest ih =>
    simp only [List.length_cons, List.map_cons, List.cons_append, decChars,
      List.append_eq, ih, Option.map_some', Char.ofNat_toNat]

theorem decStr_enc (s : String) (r : List Nat) :
    decStr (encStr s ++ r) = some (s, r) := by
  unfold decStr encStr
  simp only [List.cons_append, decNat, Option.bind_eq_bind, Option.some_bind,
    decChars_enc s.data r]
  rfl

theorem decRat_enc (q : ℚ) (r : List Nat) :
    decRat (encRat q ++ r) = some (q, r) := by
  unfold decRat encRat
  rw [List.append_assoc]
  simp only [decInt_enc, Option.bind_eq_bind, Option.some_bind, encNat,
    List.cons_append, List.nil_append, decNat]
  rw [Rat.num_div_den]

theorem decListWith_enc {α : Type} (g : List Nat → Option (α × List Nat))
    (f : α → List Nat) (henc : ∀ (x : α) (r : List Nat), g (f x ++ r) = some (x, r)) :
    ∀ (xs : List α) (r : List Nat),
      decListWith g xs.length ((xs.map f).flatten ++ r) = some (xs, r) := by
  intro xs
  induction xs with
  | nil => intro r; rfl
  | cons x rest ih =>
    intro r
    simp only [List.length_cons, List.map_cons, List.flatten_cons,
      List.append_assoc, decListWith, henc x, Option.bind_eq_bind,
      Option.some_bind, ih r]

theorem decEntry_enc (p : String × ℚ) (r : List Nat) :
    decEntry (encEntry p ++ r) = some (p, r) := by
  unfold decEntry encEntry
  rw [List.append_assoc]
  simp only [decStr_enc, Option.bind_eq_bind, Option.some_bind, decRat_enc]

theorem decDoc_enc (d : IndexedDocument) (r : List Nat) :
    decDoc (encDoc d ++ r) = some (d, r) := by
  unfold decDoc encDoc encListWith
  rw [List.append_assoc, List.append_assoc, List.append_assoc]
  simp only [decStr_enc, Option.bind_eq_bind, Option.some_bind, List.cons_append,
    decNat, decListWith_enc decEntry encEntry decEntry_enc d.term_frequencies r]

theorem decContainer_enc (c : CacheContainer) :
    decContainer (encContainer c) = some c := by
  have hidf : decListWith decEntry c.idf.length ((c.idf.map encEntry).flatten) =
      some (c.idf, []) := by
    simpa using decListWith_enc decEntry encEntry decEntry_enc c.idf []
  unfold decContainer encContainer
  rw [List.append_assoc]
  simp only [encNat, encListWith, List.singleton_append, List.cons_append,
    List.nil_append, decNat, Option.bind_eq_bind, Option.some_bind]
  rw [decListWith_enc decDoc encDoc decDoc_enc c.documents
    (c.idf.length :: (c.idf.map encEntry).flatten)]
  simp only [Option.some_bind, decNat, hidf]

/-- C8 (spec-modelled serialization): deserializing the bytes produced by
serializing a built index yields a container with identical fingerprint,
identical document collection (paths, titles, descriptions and term-frequency
maps, in order) and identical idf map; `load_from_cache` on the saved bytes
with the same path hash installs exactly the saved state, hence every probe
query scores identically. -/
theorem cache_roundtrip (pathHash : Nat) (st : SearcherState) :
    decContainer (encContainer ⟨pathHash, st.documents, st.idf⟩) =
      some ⟨pathHash, st.documents, st.idf⟩ ∧
    load_from_cache (save_to_cache pathHash st) pathHash = .ok (some st) ∧
    (∀ st', load_from_cache (save_to_cache pathHash st) pathHash = .ok (some st') →
      ∀ q, search st' q = search st q) := by
  have hdec := decContainer_enc ⟨pathHash, st.documents, st.idf⟩
  have hload : load_from_cache (save_to_cache pathHash st) pathHash = .ok (some st) := by
    unfold load_from_cache save_to_cache
    rw [hdec]
    simp
  refine ⟨hdec, hload, ?_⟩
  intro st' h q
  rw [hload] at h
  cases h
  rfl

/-- Witness for `cache_roundtrip`: a concrete one-document index with a
nontrivial term-frequency value survives the save/load cycle intact. -/
theorem cache_roundtrip_witness :
    load_from_cache
        (save_to_cache 7
          ⟨[⟨"a.html", "A", "D", [("foo", (1 : ℚ)/2)]⟩], [("foo", 3)]⟩) 7 =
      .ok (some ⟨[⟨"a.html", "A", "D", [("foo", (1 : ℚ)/2)]⟩], [("foo", 3)]⟩) :=
  (cache_roundtrip 7 _).2.1

end SearchDocs
